import Mathlib

/-!
# Verification of the Zotero duplicate-merge engine

Shallow embedding of `scripts/merge_zotero_duplicates.py`: the canonicalizer
(`canonical_group_key`), the bundle builder (`build_bundle`), the child
deduplication (`dedupe_children`) and the merge engine (`merge_group`,
plus the group loop of `main`), together with proofs of the specification
claims about them.

Python strings are modelled as Lean `String`s, Python `dict` payloads as a
structure with one optional field per key the script reads, Python `set`s as
`Finset`, insertion-ordered `dict`s as association lists, and `datetime`
values as `Int` (seconds relative to the Unix epoch, the value
`datetime.fromtimestamp(0, tz=utc)` used by the script).  The network calls of
`ZoteroAPI` are modelled by a trace of issued write operations together with a
`fails` predicate saying which conditional writes the server rejects with a
version conflict (`raise_for_status` raising, modelled as `Except.error`).
-/

/-! ## Python string primitives used by the script -/

/-- Characters matched by the regex class `\s` (ASCII range), as used by
`re.sub(r"\s+", ...)` and by Python's `str.strip()`. -/
def isPySpace (c : Char) : Bool :=
  c = ' ' || c = '\t' || c = '\n' || c = '\r' || c = '\x0b' || c = '\x0c'

/-- Helper for `collapseWs`: `sp` records whether the previous character was
whitespace (so a run of whitespace yields a single `' '`). -/
def collapseWsGo : Bool → List Char → List Char
  | _, [] => []
  | sp, c :: rest =>
    if isPySpace c then
      if sp then collapseWsGo true rest else ' ' :: collapseWsGo true rest
    else c :: collapseWsGo false rest

/-- Model of `re.sub(r"\s+", " ", s)`: every maximal run of whitespace is
replaced by a single space. -/
def collapseWs (s : String) : String :=
  String.mk (collapseWsGo false s.toList)

/-- Model of Python `str.strip()` (strip leading and trailing whitespace). -/
def pyStrip (s : String) : String :=
  String.mk (((s.toList.dropWhile isPySpace).reverse.dropWhile isPySpace).reverse)

/-- Model of Python `str.lower()`.  The script only ever inspects the result
through the class `[a-z0-9 ]` or by string equality on ASCII constants, for
which ASCII lowercasing agrees with Python's Unicode lowercasing. -/
def pyLower (s : String) : String :=
  String.mk (s.toList.map Char.toLower)

/-- Model of Python `str.rstrip("/")`. -/
def rstripSlash (s : String) : String :=
  String.mk ((s.toList.reverse.dropWhile (fun c => c = '/')).reverse)

/-- Model of `s.split("#", 1)[0]`: everything before the first `'#'`. -/
def beforeHash (s : String) : String :=
  String.mk (s.toList.takeWhile (fun c => c ≠ '#'))

/-- Model of Python `str.replace(old, "")` for a non-empty pattern `old`:
remove every (leftmost, non-overlapping) occurrence of `old`. -/
def removeAll (old : List Char) : List Char → List Char
  | [] => []
  | c :: rest =>
    if old ≠ [] ∧ List.take old.length (c :: rest) = old then
      removeAll old (List.drop old.length (c :: rest))
    else
      c :: removeAll old rest
termination_by s => s.length
decreasing_by
  · rename_i h
    have hlen : 1 ≤ old.length := by
      cases old with
      | nil => exact absurd rfl h.1
      | cons a l => simp
    simp only [List.length_drop, List.length_cons]
    omega
  · simp only [List.length_cons]; omega

/-- Python truthiness of an optional string: `None` and `""` are falsy. -/
def truthyS : Option String → Bool
  | none => false
  | some s => s ≠ ""

/-- Model of the Python expression `a or b` on two optional strings
(`dict.get` results): returns `a` when `a` is truthy, else `b`. -/
def pyOrOpt (a b : Option String) : Option String :=
  if truthyS a then a else b

/-- Model of the Python expression `x or ""` for an optional string. -/
def pyOrStr (a : Option String) : String :=
  match a with
  | none => ""
  | some s => s

/-! ## Canonicalizer (`normalize_title`, `normalize_url`, `canonical_group_key`) -/

/-- Characters kept by `re.sub(r"[^a-z0-9 ]", "", ...)`. -/
def isTitleChar (c : Char) : Bool :=
  ('a' ≤ c && c ≤ 'z') || ('0' ≤ c && c ≤ '9') || c = ' '

/-- `normalize_title` from the script: lower-case, collapse whitespace runs,
strip non-alphanumeric characters, strip surrounding whitespace. -/
def normalize_title (title : String) : String :=
  let cleaned := pyLower title
  let cleaned := collapseWs cleaned
  let cleaned := String.mk (cleaned.toList.filter isTitleChar)
  pyStrip cleaned

/-- `normalize_url` from the script: strip, lower-case, drop the URL fragment,
drop trailing slashes. -/
def normalize_url (url : String) : String :=
  let cleaned := pyLower (pyStrip url)
  let cleaned := beforeHash cleaned
  rstripSlash cleaned

/-- The nested `clean_doi` of `canonical_group_key`: strip/lower the raw DOI,
remove the `https://doi.org/` and `http://doi.org/` prefixes (everywhere, as
`str.replace` does), and return `None` for a falsy input or empty result. -/
def clean_doi (raw : Option String) : Option String :=
  if truthyS raw then
    let canon := pyLower (pyStrip (pyOrStr raw))
    let canon := String.mk (removeAll "https://doi.org/".toList canon.toList)
    let canon := String.mk (removeAll "http://doi.org/".toList canon.toList)
    if canon = "" then none else some canon
  else none

/-- Model of `re.search(r"(\d{4})", s)`: the first (leftmost) run of four
consecutive digits in `s`, if any. -/
def findFourDigits : List Char → Option String
  | c :: d1 :: d2 :: d3 :: rest =>
    if c.isDigit && d1.isDigit && d2.isDigit && d3.isDigit then
      some (String.mk [c, d1, d2, d3])
    else findFourDigits (d1 :: d2 :: d3 :: rest)
  | _ => none

/-! ## Record payloads -/

/-- A Zotero tag entry (a dict `{"tag": ..., "type": ...}`); `ty` models the
uninterpreted `type` field so that two tags with equal labels can differ. -/
structure Tag where
  tag : Option String := none
  ty : Option Nat := none
deriving DecidableEq, Repr

/-- The fields of an item's `data` dict that the script reads.  A missing key
(`dict.get` returning `None`) is `none`. -/
structure ItemData where
  itemType : Option String := none
  DOI : Option String := none
  doi : Option String := none
  url : Option String := none
  title : Option String := none
  year : Option String := none
  date : Option String := none
  dateModified : Option String := none
  dateAdded : Option String := none
  collections : Option (List String) := none
  tags : Option (List Tag) := none
  note : Option String := none
  filename : Option String := none
  contentType : Option String := none
  linkMode : Option String := none
  parentItem : Option String := none
deriving DecidableEq, Repr

/-- An item entry as the script materialises it:
`{"key": ..., "version": ..., "data": ...}`. -/
structure Entry where
  key : String
  version : Nat
  data : ItemData
deriving DecidableEq, Repr

/-- Grouping modes accepted by `--group-by` (argparse restricts the choices
to exactly these four strings, so the `SystemExit` branch for an unknown mode
is unreachable). -/
inductive GroupMode
  | auto | doi | url | title
deriving DecidableEq, Repr

/-- The nested `title_key` of `canonical_group_key`. -/
def title_key (data : ItemData) : Option String :=
  if truthyS data.title then
    let normalized := normalize_title (pyOrStr data.title)
    if normalized.length < 8 then none
    else
      let year :=
        if truthyS data.year then pyOrStr data.year
        else
          match findFourDigits (pyOrStr data.date).toList with
          | some y => y
          | none => ""
      if year = "" then some normalized else some (normalized ++ "|" ++ year)
  else none

/-- `canonical_group_key` from the script. -/
def canonical_group_key (data : ItemData) (mode : GroupMode) :
    Option (String × String) :=
  let doi := clean_doi (pyOrOpt data.DOI data.doi)
  let url := if truthyS data.url then some (normalize_url (pyOrStr data.url)) else none
  let title := title_key data
  match mode with
  | .doi => if truthyS doi then some ("doi", pyOrStr doi) else none
  | .url => if truthyS url then some ("url", pyOrStr url) else none
  | .title => if truthyS title then some ("title", pyOrStr title) else none
  | .auto =>
    if truthyS doi then some ("doi", pyOrStr doi)
    else if truthyS url then some ("url", pyOrStr url)
    else if truthyS title then some ("title", pyOrStr title)
    else none

/-! ## Timestamps (`parse_iso8601`)

Python `datetime` values are modelled as `Int` seconds relative to the Unix
epoch; `datetime.fromtimestamp(0, tz=utc)` is the value `0`.  The library
function `datetime.fromisoformat` is modelled by an executable parser for the
grammar `YYYY-MM-DD[THH:MM:SS[±HH:MM]]` (a subset of what CPython accepts);
malformed input is `none`, modelling the `ValueError` branch.  The numeric
value uses a fixed 31-day month so that the map is strictly monotone in
`(year, month, day, time)` and sends `1970-01-01T00:00:00+00:00` to `0`. -/

/-- Numeric value of a decimal digit pair. -/
def twoDigits (a b : Char) : Int :=
  Int.ofNat ((a.toNat - 48) * 10 + (b.toNat - 48))

/-- Model of an ISO-8601 UTC offset suffix: empty (naive) or `±HH:MM`. -/
def offsetSeconds : List Char → Option Int
  | [] => some 0
  | '+' :: h1 :: h2 :: ':' :: m1 :: m2 :: [] =>
    if h1.isDigit && h2.isDigit && m1.isDigit && m2.isDigit then
      some (twoDigits h1 h2 * 3600 + twoDigits m1 m2 * 60)
    else none
  | '-' :: h1 :: h2 :: ':' :: m1 :: m2 :: [] =>
    if h1.isDigit && h2.isDigit && m1.isDigit && m2.isDigit then
      some (-(twoDigits h1 h2 * 3600 + twoDigits m1 m2 * 60))
    else none
  | _ => none

/-- Model of the time-of-day part following the date: empty, or
`THH:MM:SS` followed by an optional offset. -/
def timeSeconds : List Char → Option Int
  | [] => some 0
  | 'T' :: h1 :: h2 :: ':' :: m1 :: m2 :: ':' :: s1 :: s2 :: tz =>
    if h1.isDigit && h2.isDigit && m1.isDigit && m2.isDigit && s1.isDigit && s2.isDigit then
      match offsetSeconds tz with
      | some off => some (twoDigits h1 h2 * 3600 + twoDigits m1 m2 * 60 + twoDigits s1 s2 - off)
      | none => none
    else none
  | _ => none

/-- Model of `datetime.datetime.fromisoformat` (see the section comment):
`none` models `ValueError`. -/
def fromisoformat (s : String) : Option Int :=
  match s.toList with
  | y1 :: y2 :: y3 :: y4 :: '-' :: m1 :: m2 :: '-' :: d1 :: d2 :: rest =>
    if y1.isDigit && y2.isDigit && y3.isDigit && y4.isDigit &&
        m1.isDigit && m2.isDigit && d1.isDigit && d2.isDigit then
      let y : Int := twoDigits y1 y2 * 100 + twoDigits y3 y4
      let mo : Int := twoDigits m1 m2
      let d : Int := twoDigits d1 d2
      if 1 ≤ mo ∧ mo ≤ 12 ∧ 1 ≤ d ∧ d ≤ 31 then
        match timeSeconds rest with
        | some t => some (((y - 1970) * 372 + (mo - 1) * 31 + (d - 1)) * 86400 + t)
        | none => none
      else none
    else none
  | _ => none

/-- The `value.endswith("Z")` rewrite at the top of `parse_iso8601`:
a trailing `Z` is replaced by `+00:00`. -/
def zfix (s : String) : String :=
  match s.toList.getLast? with
  | some 'Z' => String.mk (s.toList.dropLast ++ "+00:00".toList)
  | _ => s

/-- `parse_iso8601` from the script: a falsy (`None`/empty) or unparsable
value is the epoch (`0`), otherwise the parsed instant. -/
def parse_iso8601 (value : Option String) : Int :=
  match value with
  | none => 0
  | some v => if v = "" then 0 else (fromisoformat (zfix v)).getD 0

/-! ## Child signatures and bundles -/

/-- A child signature, the tuple returned by `child_signature`. -/
abbrev Sig := String × String × String

/-- The processed identifier of `canonical_group_key`:
`clean_doi(data.get("DOI") or data.get("doi"))`. -/
def doiKeyOpt (data : ItemData) : Option String :=
  clean_doi (pyOrOpt data.DOI data.doi)

/-- The processed link of `canonical_group_key`:
`normalize_url(url) if url else None`. -/
def urlKeyOpt (data : ItemData) : Option String :=
  if truthyS data.url then some (normalize_url (pyOrStr data.url)) else none

/-- `child_signature` from the script: a note is keyed by its
whitespace-normalized body; any other child by
`(itemType, "filename|contentType", linkMode)` with the filename falling back
to the title and lower-cased. -/
def child_signature (child : Entry) : Sig :=
  let data := child.data
  let item_type := pyOrStr data.itemType
  if item_type = "note" then
    (item_type, pyStrip (collapseWs (pyOrStr data.note)), "")
  else
    let filename := pyLower (pyStrip (pyOrStr (pyOrOpt data.filename data.title)))
    (item_type, filename ++ "|" ++ pyOrStr data.contentType, pyOrStr data.linkMode)

/-- `has_pdf_attachment` from the script. -/
def has_pdf_attachment (children : List Entry) : Bool :=
  children.any fun child =>
    child.data.itemType = some "attachment" &&
      (child.data.contentType = some "application/pdf" ||
        (pyLower (pyOrStr child.data.filename)).endsWith ".pdf")

/-- `ItemBundle` from the script (the two `datetime` facets as `Int`). -/
structure ItemBundle where
  entry : Entry
  children : List Entry
  attachments : List Entry
  notes : List Entry
  has_pdf : Bool
  modified : Int
  added : Int
deriving DecidableEq, Repr

/-- A bundle with every field empty, used as a `getD` default. -/
def emptyBundle : ItemBundle :=
  { entry := ⟨"", 0, {}⟩, children := [], attachments := [], notes := [],
    has_pdf := false, modified := 0, added := 0 }

/-- The comparison tuple returned by `ItemBundle.score`. -/
abbrev Score := Nat × Nat × Nat × Int × Int

/-- `ItemBundle.score` from the script:
`(pdf_score, attachment_count, note_count, modified, added)`. -/
def scoreTuple (b : ItemBundle) : Score :=
  ((if b.has_pdf then 1 else 0), b.attachments.length, b.notes.length, b.modified, b.added)

/-- Lexicographic strict order on score tuples, exactly Python's `<` on the
5-tuples returned by `ItemBundle.score`. -/
def scoreLt (s t : Score) : Prop :=
  s.1 < t.1 ∨ (s.1 = t.1 ∧ (s.2.1 < t.2.1 ∨ (s.2.1 = t.2.1 ∧
    (s.2.2.1 < t.2.2.1 ∨ (s.2.2.1 = t.2.2.1 ∧
      (s.2.2.2.1 < t.2.2.2.1 ∨ (s.2.2.2.1 = t.2.2.2.1 ∧ s.2.2.2.2 < t.2.2.2.2)))))))

instance (s t : Score) : Decidable (scoreLt s t) := by
  unfold scoreLt; infer_instance

/-- `build_bundle` from the script.  The children are fetched from the remote
store by `api.fetch_children`; that network read is modelled by passing the
fetched list as an argument. -/
def build_bundle (entry : Entry) (children : List Entry) : ItemBundle :=
  { entry := entry
    children := children
    attachments := children.filter (fun c => c.data.itemType = some "attachment")
    notes := children.filter (fun c => c.data.itemType = some "note")
    has_pdf := has_pdf_attachment children
    modified := parse_iso8601 entry.data.dateModified
    added := parse_iso8601 entry.data.dateAdded }

/-! ## Survivor ordering (`sorted(bundles, key=score, reverse=True)`)

Python's `sorted` is a stable sort; with `reverse=True` it produces the list
in descending key order with equal-key elements in input order.  A stable sort
for a total preorder has a unique output, so the stable descending insertion
sort below is extensionally the sort the script performs. -/

/-- Insert `b` into a descending-sorted list, before the first element whose
score is not greater than `b`'s (so earlier-input equals stay in front of
later-input ones: stability). -/
def insertDesc (b : ItemBundle) : List ItemBundle → List ItemBundle
  | [] => [b]
  | c :: rest =>
    if scoreLt (scoreTuple b) (scoreTuple c) then c :: insertDesc b rest
    else b :: c :: rest

/-- Model of `sorted(bundles, key=lambda b: b.score(), reverse=True)`. -/
def sortDesc (l : List ItemBundle) : List ItemBundle :=
  l.foldr insertDesc []

/-! ## Child deduplication (`dedupe_children`) -/

/-- The loop of `dedupe_children` with its running `seen` signature set. -/
def dedupeGo (seen : Finset Sig) : List Entry → List Entry
  | [] => []
  | c :: rest =>
    if child_signature c ∈ seen then dedupeGo seen rest
    else c :: dedupeGo (insert (child_signature c) seen) rest

/-- `dedupe_children` from the script: keep the incoming children whose
signature is not among the existing children's signatures nor among the
signatures already kept from this batch. -/
def dedupe_children (existing incoming : List Entry) : List Entry :=
  dedupeGo (existing.map child_signature).toFinset incoming

/-! ## The merge engine (`merge_group`)

Writes against the remote store are recorded in a trace.  `fails k v` says
that a conditional write guarded by `If-Unmodified-Since-Version: v` on item
`k` is rejected by the server (HTTP 412, a stale version stamp), in which case
`raise_for_status` raises; the exception is modelled by `Except.error`
carrying the state at the moment of the raise (a rejected write is not added
to the trace).  Dry-run log lines are recorded as `dry*` trace entries. -/

/-- One observable action of the script against the store (or, in dry-run
mode, one `[DRY]` log line describing it). -/
inductive ApiOp
  | updateItem (key : String) (version : Nat) (newData : ItemData)
  | deleteItem (key : String) (version : Nat)
  | dryReparent (childKey : String) (winnerKey : String)
  | dryDelete (key : String)
  | dryUpdateWinner (key : String)
deriving DecidableEq, Repr

/-- The mutable local state of one `merge_group` call. -/
structure MergeState where
  unionCollections : Finset String
  existingTags : List (String × Tag)
  winnerChildren : List Entry
  trace : List ApiOp
  attachmentsMoved : Nat
  notesMoved : Nat
deriving DecidableEq

/-- `set(data.get("collections") or [])`. -/
def collSet (d : ItemData) : Finset String :=
  (d.collections.getD []).toFinset

/-- `data.get("tags") or []`. -/
def pyTags (d : ItemData) : List Tag :=
  d.tags.getD []

/-- Python `d[k] = v` on an insertion-ordered dict: overwrite in place if the
key exists, else append. -/
def dictSet (d : List (String × Tag)) (k : String) (v : Tag) : List (String × Tag) :=
  if (d.find? (fun p => p.1 = k)).isSome then
    d.map (fun p => if p.1 = k then (k, v) else p)
  else d ++ [(k, v)]

/-- The dict comprehension
`{tag.get("tag"): tag for tag in winner_tags if tag.get("tag")}`. -/
def initTags (ts : List Tag) : List (String × Tag) :=
  ts.foldl
    (fun d t =>
      match t.tag with
      | some s => if s ≠ "" then dictSet d s t else d
      | none => d)
    []

/-- The per-loser tag loop: `if tag_value and tag_value not in existing_tags:
existing_tags[tag_value] = tag`. -/
def addLoserTags (d : List (String × Tag)) (ts : List Tag) : List (String × Tag) :=
  ts.foldl
    (fun d t =>
      match t.tag with
      | some s =>
        if s ≠ "" ∧ (d.find? (fun p => p.1 = s)).isNone then d ++ [(s, t)] else d
      | none => d)
    d

/-- `new_data = child["data"].copy(); new_data["parentItem"] = winner_key`. -/
def withParent (d : ItemData) (winnerKey : String) : ItemData :=
  { d with parentItem := some winnerKey }

/-- The re-parent loop of `merge_group` (live mode): for each unique child,
issue `api.update_item(child, new_data)` and bump the moved counter; a version
conflict raises, aborting the whole call. -/
def reparentChildren (fails : String → Nat → Bool) (winnerKey : String) :
    List Entry → MergeState → Except MergeState MergeState
  | [], st => .ok st
  | c :: rest, st =>
    if fails c.key c.version then .error st
    else
      let st' : MergeState :=
        { st with
          trace := st.trace ++ [ApiOp.updateItem c.key c.version (withParent c.data winnerKey)]
          notesMoved := if c.data.itemType = some "note" then st.notesMoved + 1 else st.notesMoved
          attachmentsMoved :=
            if c.data.itemType = some "note" then st.attachmentsMoved else st.attachmentsMoved + 1 }
      reparentChildren fails winnerKey rest st'

/-- The children a loser contributes, `loser.attachments + loser.notes`. -/
def incomingOf (l : ItemBundle) : List Entry :=
  l.attachments ++ l.notes

/-- One iteration of the `for loser in loser_bundles` loop of `merge_group`.
Note that in live mode the unique children are appended to `winner_children`
after being re-parented, while the dry-run branch does not extend
`winner_children` (exactly as in the source). -/
def stepLoser (fails : String → Nat → Bool) (dryRun : Bool) (winner loser : ItemBundle)
    (st : MergeState) : Except MergeState MergeState :=
  let st0 : MergeState :=
    { st with
      unionCollections := st.unionCollections ∪ collSet loser.entry.data
      existingTags := addLoserTags st.existingTags (pyTags loser.entry.data) }
  let unique := dedupe_children st0.winnerChildren (incomingOf loser)
  if dryRun then
    .ok { st0 with
      trace := st0.trace ++ unique.map (fun c => ApiOp.dryReparent c.key winner.entry.key)
        ++ [ApiOp.dryDelete loser.entry.key] }
  else
    match reparentChildren fails winner.entry.key unique st0 with
    | .error e => .error e
    | .ok st1 =>
      let st2 : MergeState := { st1 with winnerChildren := st1.winnerChildren ++ unique }
      if fails loser.entry.key loser.entry.version then .error st2
      else .ok { st2 with trace := st2.trace ++ [ApiOp.deleteItem loser.entry.key loser.entry.version] }

/-- The `for loser in loser_bundles` loop; an exception anywhere aborts the
remaining iterations (there is no `try` in `merge_group`). -/
def processLosers (fails : String → Nat → Bool) (dryRun : Bool) (winner : ItemBundle) :
    List ItemBundle → MergeState → Except MergeState MergeState
  | [], st => .ok st
  | l :: rest, st =>
    match stepLoser fails dryRun winner l st with
    | .error e => .error e
    | .ok st' => processLosers fails dryRun winner rest st'

/-- The initial local state of `merge_group`: `winner_children`,
`union_collections` and `existing_tags` seeded from the winner. -/
def initState (winner : ItemBundle) : MergeState :=
  { unionCollections := collSet winner.entry.data
    existingTags := initTags (pyTags winner.entry.data)
    winnerChildren := winner.children
    trace := []
    attachmentsMoved := 0
    notesMoved := 0 }

/-- The `new_data` written to the winner when collections or tags changed:
`collections = sorted(union_collections)`, `tags = list(existing_tags.values())`. -/
def winnerNewData (winner : ItemBundle) (st : MergeState) : ItemData :=
  { winner.entry.data with
    collections := some (st.unionCollections.sort (· ≤ ·))
    tags := some (st.existingTags.map Prod.snd) }

/-- `merge_group` from the script.  The survivor is
`sorted(bundles, key=score, reverse=True)[0]`; the losers are the rest, in
rank order.  The empty-input case models the `IndexError` that
`bundles_sorted[0]` would raise (`main` only ever passes groups of ≥ 2). -/
def merge_group (fails : String → Nat → Bool) (bundles : List ItemBundle)
    (dryRun : Bool) : Except MergeState MergeState :=
  match sortDesc bundles with
  | [] => .error ⟨∅, [], [], [], 0, 0⟩
  | winner :: losers =>
    match processLosers fails dryRun winner losers (initState winner) with
    | .error e => .error e
    | .ok st =>
      if st.unionCollections ≠ collSet winner.entry.data ∨
          st.existingTags.length ≠ (pyTags winner.entry.data).length then
        if dryRun then
          .ok { st with trace := st.trace ++ [ApiOp.dryUpdateWinner winner.entry.key] }
        else if fails winner.entry.key winner.entry.version then .error st
        else
          .ok { st with trace := st.trace ++
            [ApiOp.updateItem winner.entry.key winner.entry.version (winnerNewData winner st)] }
      else .ok st

/-- The `for key, entries in duplicate_groups.items()` loop of `main`, with
each group's bundles already built: traces are concatenated and the first
uncaught exception aborts the whole run (`main` has no `try`; the top-level
handler prints the error and exits). -/
def run_groups (fails : String → Nat → Bool) (dryRun : Bool) :
    List (List ItemBundle) → Except (List ApiOp) (List ApiOp)
  | [] => .ok []
  | g :: rest =>
    match merge_group fails g dryRun with
    | .error st => .error st.trace
    | .ok st =>
      match run_groups fails dryRun rest with
      | .error t => .error (st.trace ++ t)
      | .ok t => .ok (st.trace ++ t)

/-! ## Grouping (`main`) -/

/-- `groups.setdefault(key, []).append(entry)` on an insertion-ordered dict of
groups. -/
def addToGroups (gs : List ((String × String) × List Entry)) (k : String × String)
    (e : Entry) : List ((String × String) × List Entry) :=
  if (gs.find? (fun g => g.1 = k)).isSome then
    gs.map (fun g => if g.1 = k then (g.1, g.2 ++ [e]) else g)
  else gs ++ [(k, [e])]

/-- The grouping loop of `main`: skip note/attachment items and items without
a canonical key, and collect the rest per key (first-seen order). -/
def group_items (entries : List Entry) (mode : GroupMode) :
    List ((String × String) × List Entry) :=
  entries.foldl
    (fun gs e =>
      if e.data.itemType = some "note" ∨ e.data.itemType = some "attachment" then gs
      else
        match canonical_group_key e.data mode with
        | none => gs
        | some k => addToGroups gs k e)
    []

/-- `duplicate_groups`: only keys mapping to two or more records. -/
def duplicate_groups (entries : List Entry) (mode : GroupMode) :
    List ((String × String) × List Entry) :=
  (group_items entries mode).filter (fun g => 1 < g.2.length)

/-! ## Pure views of one merge pass

These definitions recompute, without state, what `merge_group` does to the
survivor's child list and to the trace; lemmas below connect them to
`merge_group`. -/

/-- The unique-children batches of the losers in live mode: each loser is
deduplicated against the survivor's current children, which grow by every
batch already moved. -/
def classifyLosers (wc : List Entry) : List ItemBundle → List (List Entry)
  | [] => []
  | l :: rest =>
    let u := dedupe_children wc (incomingOf l)
    u :: classifyLosers (wc ++ u) rest

/-- The unique-children batches as dry-run mode computes them: every loser is
deduplicated against the survivor's *original* children only, because the
dry-run branch never extends `winner_children`. -/
def classifyLosersDry (wc : List Entry) (ls : List ItemBundle) : List (List Entry) :=
  ls.map (fun l => dedupe_children wc (incomingOf l))

/-- The live-mode trace segment of one loser: the re-parent updates of its
unique children followed by the loser's delete. -/
def loserSeg (winnerKey : String) (u : List Entry) (l : ItemBundle) : List ApiOp :=
  u.map (fun c => ApiOp.updateItem c.key c.version (withParent c.data winnerKey))
    ++ [ApiOp.deleteItem l.entry.key l.entry.version]

/-- The full live trace of the loser loop when no write fails. -/
def liveTrace (winnerKey : String) (wc : List Entry) (ls : List ItemBundle) : List ApiOp :=
  (List.zipWith (loserSeg winnerKey) (classifyLosers wc ls) ls).flatten

/-- The collections union accumulated over the losers. -/
def unionCollsAfter (init : Finset String) (ls : List ItemBundle) : Finset String :=
  ls.foldl (fun a l => a ∪ collSet l.entry.data) init

/-- The tag dict accumulated over the losers. -/
def tagsAfter (init : List (String × Tag)) (ls : List ItemBundle) : List (String × Tag) :=
  ls.foldl (fun a l => addLoserTags a (pyTags l.entry.data)) init

/-! ## Trace projections used in claim statements -/

deriving instance DecidableEq for Except

/-- The trace of a `merge_group` result, whether it completed or raised. -/
def traceOf (r : Except MergeState MergeState) : List ApiOp :=
  match r with
  | .ok st => st.trace
  | .error st => st.trace

/-- Whether a `merge_group` call completed without an exception. -/
def isOkE (r : Except MergeState MergeState) : Bool :=
  match r with
  | .ok _ => true
  | .error _ => false

/-- The child keys a dry run reports it would re-parent, in order. -/
def dryReparentKeys (t : List ApiOp) : List String :=
  t.filterMap fun op =>
    match op with
    | .dryReparent k _ => some k
    | _ => none

/-- The keys of the items a live run actually updates, in order. -/
def updateKeys (t : List ApiOp) : List String :=
  t.filterMap fun op =>
    match op with
    | .updateItem k _ _ => some k
    | _ => none

/-- The keys of the items a live run deletes, in order. -/
def deleteKeys (t : List ApiOp) : List String :=
  t.filterMap fun op =>
    match op with
    | .deleteItem k _ => some k
    | _ => none

/-- Whether the trace contains an `update_item` write for key `k`. -/
def hasUpdateFor (t : List ApiOp) (k : String) : Bool :=
  t.any fun op =>
    match op with
    | .updateItem k' _ _ => k' = k
    | _ => false

/-- The failure predicate of a store that accepts every write. -/
def noFail : String → Nat → Bool := fun _ _ => false

/-! ## Concrete instances used by the claim witnesses and counterexamples -/

/-- A top-level article bundle with a primary file, key `"W"`, no children. -/
def exW : ItemBundle :=
  { entry := ⟨"W", 1, { itemType := some "journalArticle" }⟩, children := [],
    attachments := [], notes := [], has_pdf := true, modified := 0, added := 0 }

/-- A note child with body `"same"`, key `"n1"`. -/
def exN1 : Entry := ⟨"n1", 1, { itemType := some "note", note := some "same" }⟩

/-- A second note child with the same body (hence the same signature), key `"n2"`. -/
def exN2 : Entry := ⟨"n2", 1, { itemType := some "note", note := some "same" }⟩

/-- A loser bundle carrying `exN1`; it ranks above `exL2` (more recent). -/
def exL1 : ItemBundle :=
  { entry := ⟨"L1", 1, {}⟩, children := [exN1], attachments := [], notes := [exN1],
    has_pdf := false, modified := 5, added := 0 }

/-- A loser bundle carrying `exN2`, ranked below `exL1`. -/
def exL2 : ItemBundle :=
  { entry := ⟨"L2", 1, {}⟩, children := [exN2], attachments := [], notes := [exN2],
    has_pdf := false, modified := 3, added := 0 }

/-- A winner bundle for a second duplicate group, key `"V"`. -/
def exV : ItemBundle :=
  { entry := ⟨"V", 1, {}⟩, children := [], attachments := [], notes := [],
    has_pdf := true, modified := 0, added := 0 }

/-- A childless loser for the second group, key `"L9"`. -/
def exL9 : ItemBundle :=
  { entry := ⟨"L9", 1, {}⟩, children := [], attachments := [], notes := [],
    has_pdf := false, modified := 0, added := 0 }

/-- A store in which every conditional write guarded on item `"L1"` is
rejected with a version conflict. -/
def exFailsL1 : String → Nat → Bool := fun k _ => k = "L1"

/-- A tag with label `"a"`. -/
def exTagA : Tag := { tag := some "a" }

/-- A winner whose raw tag list holds the same label twice, key `"W2"`. -/
def exTagW : ItemBundle :=
  { entry := ⟨"W2", 1, { tags := some [exTagA, exTagA] }⟩, children := [],
    attachments := [], notes := [], has_pdf := true, modified := 0, added := 0 }

/-- A childless, tagless, collectionless loser, key `"L3"`. -/
def exTagL : ItemBundle :=
  { entry := ⟨"L3", 1, {}⟩, children := [], attachments := [], notes := [],
    has_pdf := false, modified := 0, added := 0 }

/-- A winner with one well-formed tag, key `"W3"`. -/
def exOkW : ItemBundle :=
  { entry := ⟨"W3", 1, { tags := some [exTagA] }⟩, children := [],
    attachments := [], notes := [], has_pdf := true, modified := 0, added := 0 }

/-- A childless, tagless loser for the well-formed group, key `"L4"`. -/
def exOkL : ItemBundle :=
  { entry := ⟨"L4", 1, {}⟩, children := [], attachments := [], notes := [],
    has_pdf := false, modified := 0, added := 0 }

/-- A record with a long title and link `http://a.com`, but no identifier. -/
def exD1 : ItemData := { title := some "Duplicated Title Here", url := some "http://a.com" }

/-- A record with the same title and no identifier, but link `http://b.com`. -/
def exD2 : ItemData := { title := some "Duplicated Title Here", url := some "http://b.com" }

/-- The final state of the conflict-free live merge of `[exW, exL1, exL2]`:
`exN1` is re-parented, `exN2` is discarded as a duplicate, both losers are
deleted, and no survivor update is needed. -/
def exStLive : MergeState :=
  { unionCollections := ∅, existingTags := [], winnerChildren := [exN1],
    trace := [ApiOp.updateItem "n1" 1 (withParent exN1.data "W"),
      ApiOp.deleteItem "L1" 1, ApiOp.deleteItem "L2" 1],
    attachmentsMoved := 0, notesMoved := 1 }

/-- The state at which the live merge of `[exW, exL1, exL2]` raises when the
store rejects the write on `"L1"`: `exN1` was re-parented, then the delete of
`"L1"` failed, so nothing further was issued. -/
def exErrSt : MergeState :=
  { unionCollections := ∅, existingTags := [], winnerChildren := [exN1],
    trace := [ApiOp.updateItem "n1" 1 (withParent exN1.data "W")],
    attachmentsMoved := 0, notesMoved := 1 }

/-- The final state of the conflict-free live merge of `[exOkW, exOkL]`:
nothing changes on the survivor, so the only write is the loser delete. -/
def exStOk : MergeState :=
  { unionCollections := ∅, existingTags := [("a", exTagA)], winnerChildren := [],
    trace := [ApiOp.deleteItem "L4" 1], attachmentsMoved := 0, notesMoved := 0 }

/-! ## Lemmas about the score order -/

theorem scoreLt_irrefl (s : Score) : ¬ scoreLt s s := by
  obtain ⟨a, b, c, d, e⟩ := s
  simp only [scoreLt]; omega

theorem scoreLt_trans {s t u : Score} (h1 : scoreLt s t) (h2 : scoreLt t u) :
    scoreLt s u := by
  obtain ⟨a, b, c, d, e⟩ := s
  obtain ⟨a', b', c', d', e'⟩ := t
  obtain ⟨a'', b'', c'', d'', e''⟩ := u
  simp only [scoreLt] at *; omega

theorem scoreLt_trichotomy (s t : Score) : scoreLt s t ∨ s = t ∨ scoreLt t s := by
  obtain ⟨a, b, c, d, e⟩ := s
  obtain ⟨a', b', c', d', e'⟩ := t
  simp only [scoreLt, Prod.mk.injEq]; omega

theorem scoreLt_asymm {s t : Score} (h : scoreLt s t) : ¬ scoreLt t s :=
  fun h' => scoreLt_irrefl s (scoreLt_trans h h')

/-! ## Lemmas about `dedupe_children` -/

theorem dedupeGo_sublist (seen : Finset Sig) (inc : List Entry) :
    (dedupeGo seen inc).Sublist inc := by
  induction inc generalizing seen with
  | nil => simp [dedupeGo]
  | cons c rest ih =>
    rw [dedupeGo]
    split
    · exact (ih seen).cons c
    · exact (ih _).cons₂ c

theorem dedupeGo_sig_not_seen (seen : Finset Sig) (inc : List Entry) :
    ∀ c ∈ dedupeGo seen inc, child_signature c ∉ seen := by
  induction inc generalizing seen with
  | nil => simp [dedupeGo]
  | cons c rest ih =>
    rw [dedupeGo]
    split
    · exact ih seen
    · rename_i hc
      intro d hd
      rcases List.mem_cons.mp hd with h | h
      · exact h ▸ hc
      · intro hmem
        exact ih _ d h (Finset.mem_insert_of_mem hmem)

theorem dedupeGo_sig_nodup (seen : Finset Sig) (inc : List Entry) :
    ((dedupeGo seen inc).map child_signature).Nodup := by
  induction inc generalizing seen with
  | nil => simp [dedupeGo]
  | cons c rest ih =>
    rw [dedupeGo]
    split
    · exact ih seen
    · simp only [List.map_cons, List.nodup_cons]
      refine ⟨fun hmem => ?_, ih _⟩
      rcases List.mem_map.mp hmem with ⟨d, hd, hsig⟩
      exact dedupeGo_sig_not_seen _ _ d hd (hsig ▸ Finset.mem_insert_self _ _)

theorem dedupeGo_mem_iff (seen : Finset Sig) (inc : List Entry) (c : Entry) :
    c ∈ dedupeGo seen inc ↔
      child_signature c ∉ seen ∧
        inc.find? (fun d => child_signature d = child_signature c) = some c := by
  induction inc generalizing seen with
  | nil => simp [dedupeGo]
  | cons a rest ih =>
    rw [dedupeGo]
    by_cases ha : child_signature a ∈ seen
    · rw [if_pos ha, ih]
      by_cases hsig : child_signature a = child_signature c
      · rw [List.find?_cons_of_pos _ (by simp [hsig])]
        constructor
        · rintro ⟨hn, -⟩
          exact absurd (hsig ▸ ha) hn
        · rintro ⟨hn, hac⟩
          exact absurd (hsig ▸ ha) hn
      · rw [List.find?_cons_of_neg _ (by simp [hsig])]
    · rw [if_neg ha]
      by_cases hsig : child_signature a = child_signature c
      · rw [List.find?_cons_of_pos _ (by simp [hsig])]
        constructor
        · intro hmem
          rcases List.mem_cons.mp hmem with h | h
          · exact ⟨h ▸ (hsig ▸ ha), by rw [h]⟩
          · have := (ih _).mp h
            exact absurd (by rw [← hsig]; exact Finset.mem_insert_self _ _) this.1
        · rintro ⟨hn, hac⟩
          exact List.mem_cons.mpr (Or.inl (Option.some_injective _ hac).symm)
      · rw [List.find?_cons_of_neg _ (by simp [hsig])]
        constructor
        · intro hmem
          rcases List.mem_cons.mp hmem with h | h
          · exact absurd (congrArg child_signature h).symm hsig
          · have := (ih _).mp h
            refine ⟨fun hmem' => this.1 (Finset.mem_insert_of_mem hmem'), this.2⟩
        · rintro ⟨hn, hfind⟩
          refine List.mem_cons.mpr (Or.inr ((ih _).mpr ⟨?_, hfind⟩))
          simp only [Finset.mem_insert]
          rintro (h | h)
          · exact hsig h.symm
          · exact hn h

theorem dedupeGo_sig_union (seen : Finset Sig) (inc : List Entry) (a : Sig) :
    (a ∈ seen ∨ a ∈ (dedupeGo seen inc).map child_signature) ↔
      (a ∈ seen ∨ a ∈ inc.map child_signature) := by
  induction inc generalizing seen with
  | nil => simp [dedupeGo]
  | cons c rest ih =>
    rw [dedupeGo]
    by_cases h : child_signature c ∈ seen
    · rw [if_pos h]
      rw [ih]
      simp only [List.map_cons, List.mem_cons]
      constructor
      · rintro (hs | hr)
        · exact Or.inl hs
        · exact Or.inr (Or.inr hr)
      · rintro (hs | hc | hr)
        · exact Or.inl hs
        · exact Or.inl (hc ▸ h)
        · exact Or.inr hr
    · rw [if_neg h]
      have := ih (insert (child_signature c) seen)
      simp only [Finset.mem_insert] at this
      simp only [List.map_cons, List.mem_cons]
      tauto

theorem dedupe_children_sublist (ex inc : List Entry) :
    (dedupe_children ex inc).Sublist inc :=
  dedupeGo_sublist _ _

theorem dedupe_children_sig_nodup (ex inc : List Entry) :
    ((dedupe_children ex inc).map child_signature).Nodup :=
  dedupeGo_sig_nodup _ _

theorem dedupe_children_not_in_ex (ex inc : List Entry) :
    ∀ c ∈ dedupe_children ex inc, child_signature c ∉ ex.map child_signature := by
  intro c hc hmem
  exact dedupeGo_sig_not_seen _ _ c hc (List.mem_toFinset.mpr hmem)

theorem dedupe_children_mem_iff (ex inc : List Entry) (c : Entry) :
    c ∈ dedupe_children ex inc ↔
      child_signature c ∉ ex.map child_signature ∧
        inc.find? (fun d => child_signature d = child_signature c) = some c := by
  rw [dedupe_children, dedupeGo_mem_iff]
  rw [List.mem_toFinset]

theorem dedupe_children_sig_set (ex inc : List Entry) (a : Sig) :
    a ∈ (ex ++ dedupe_children ex inc).map child_signature ↔
      a ∈ (ex ++ inc).map child_signature := by
  have := dedupeGo_sig_union (ex.map child_signature).toFinset inc a
  simp only [List.mem_toFinset] at this
  simp only [List.map_append, List.mem_append]
  exact this

/-! ## Lemmas about `classifyLosers` and the live trace -/

theorem classifyLosers_length (wc : List Entry) (ls : List ItemBundle) :
    (classifyLosers wc ls).length = ls.length := by
  induction ls generalizing wc with
  | nil => rfl
  | cons l rest ih => simp [classifyLosers, ih]

theorem classifyLosers_getD (wc : List Entry) (ls : List ItemBundle) :
    ∀ i, i < ls.length →
      (classifyLosers wc ls).getD i [] =
        dedupe_children (wc ++ ((classifyLosers wc ls).take i).flatten)
          (incomingOf (ls.getD i emptyBundle)) := by
  induction ls generalizing wc with
  | nil => intro i hi; simp at hi
  | cons l rest ih =>
    intro i hi
    rw [classifyLosers]
    match i with
    | 0 => simp
    | Nat.succ j =>
      simp only [List.getD_cons_succ, List.take_succ_cons, List.flatten_cons,
        ← List.append_assoc]
      exact ih _ j (by simpa using hi)

theorem classifyLosers_flatten_mem (wc : List Entry) (ls : List ItemBundle) :
    ∀ c ∈ (classifyLosers wc ls).flatten, ∃ l ∈ ls, c ∈ incomingOf l := by
  induction ls generalizing wc with
  | nil => simp [classifyLosers]
  | cons l rest ih =>
    intro c hc
    rw [classifyLosers] at hc
    simp only [List.flatten_cons, List.mem_append] at hc
    rcases hc with h | h
    · exact ⟨l, List.mem_cons_self l rest,
        (dedupe_children_sublist _ _).mem h⟩
    · obtain ⟨l', hl', hc'⟩ := ih _ c h
      exact ⟨l', List.mem_cons_of_mem _ hl', hc'⟩

theorem classifyLosers_nodup (wc : List Entry) (ls : List ItemBundle)
    (h : (wc.map child_signature).Nodup) :
    ((wc ++ (classifyLosers wc ls).flatten).map child_signature).Nodup := by
  induction ls generalizing wc with
  | nil => simpa [classifyLosers] using h
  | cons l rest ih =>
    rw [classifyLosers]
    simp only [List.flatten_cons, ← List.append_assoc]
    apply ih
    rw [List.map_append, List.nodup_append]
    refine ⟨h, dedupe_children_sig_nodup _ _, ?_⟩
    intro a ha hb
    rcases List.mem_map.mp hb with ⟨d, hd, hsig⟩
    exact dedupe_children_not_in_ex _ _ d hd (hsig ▸ ha)

theorem classifyLosers_sig_set (wc : List Entry) (ls : List ItemBundle) (a : Sig) :
    a ∈ (wc ++ (classifyLosers wc ls).flatten).map child_signature ↔
      a ∈ (wc ++ (ls.map incomingOf).flatten).map child_signature := by
  induction ls generalizing wc with
  | nil => simp [classifyLosers]
  | cons l rest ih =>
    rw [classifyLosers]
    simp only [List.map_cons, List.flatten_cons, ← List.append_assoc]
    rw [ih]
    constructor
    · intro hmem
      simp only [List.map_append, List.mem_append] at hmem ⊢
      rcases hmem with (h | h) | h
      · exact Or.inl (Or.inl h)
      · have := (dedupe_children_sig_set wc (incomingOf l) a).mp
          (by simp only [List.map_append, List.mem_append]; exact Or.inr h)
        simp only [List.map_append, List.mem_append] at this
        tauto
      · exact Or.inr h
    · intro hmem
      simp only [List.map_append, List.mem_append] at hmem ⊢
      rcases hmem with (h | h) | h
      · exact Or.inl (Or.inl h)
      · have := (dedupe_children_sig_set wc (incomingOf l) a).mpr
          (by simp only [List.map_append, List.mem_append]; exact Or.inr h)
        simp only [List.map_append, List.mem_append] at this
        tauto
      · exact Or.inr h

theorem liveTrace_cons (wk : String) (wc : List Entry) (l : ItemBundle)
    (rest : List ItemBundle) :
    liveTrace wk wc (l :: rest) =
      loserSeg wk (dedupe_children wc (incomingOf l)) l ++
        liveTrace wk (wc ++ dedupe_children wc (incomingOf l)) rest := by
  rw [liveTrace, classifyLosers]
  simp [liveTrace]

theorem liveTrace_delete_decomp (wk : String) (wc : List Entry)
    (ls : List ItemBundle) :
    ∀ i, i < ls.length →
      ∃ pre post,
        liveTrace wk wc ls =
          pre ++ ApiOp.deleteItem (ls.getD i emptyBundle).entry.key
            (ls.getD i emptyBundle).entry.version :: post ∧
        ∀ c ∈ (classifyLosers wc ls).getD i [],
          ApiOp.updateItem c.key c.version (withParent c.data wk) ∈ pre := by
  induction ls generalizing wc with
  | nil => intro i hi; simp at hi
  | cons l rest ih =>
    intro i hi
    rw [liveTrace_cons]
    match i with
    | 0 =>
      refine ⟨(dedupe_children wc (incomingOf l)).map
        (fun c => ApiOp.updateItem c.key c.version (withParent c.data wk)),
        liveTrace wk (wc ++ dedupe_children wc (incomingOf l)) rest, ?_, ?_⟩
      · simp [loserSeg]
      · intro c hc
        simp only [classifyLosers, List.getD_cons_zero] at hc
        exact List.mem_map.mpr ⟨c, hc, rfl⟩
    | Nat.succ j =>
      obtain ⟨pre, post, htr, hmem⟩ :=
        ih (wc ++ dedupe_children wc (incomingOf l)) j (by simpa using hi)
      refine ⟨loserSeg wk (dedupe_children wc (incomingOf l)) l ++ pre, post, ?_, ?_⟩
      · rw [htr]
        simp [List.append_assoc]
      · intro c hc
        simp only [classifyLosers, List.getD_cons_succ] at hc
        exact List.mem_append.mpr (Or.inr (hmem c hc))

theorem liveTrace_update_keys (wk : String) (wc : List Entry)
    (ls : List ItemBundle) (k : String) :
    hasUpdateFor (liveTrace wk wc ls) k = true →
      ∃ l ∈ ls, ∃ c ∈ incomingOf l, c.key = k := by
  induction ls generalizing wc with
  | nil => simp [liveTrace, classifyLosers, hasUpdateFor]
  | cons l rest ih =>
    rw [liveTrace_cons]
    intro h
    rw [hasUpdateFor, List.any_append] at h
    rcases Bool.or_eq_true_iff.mp h with h | h
    · rw [loserSeg, List.any_append] at h
      rcases Bool.or_eq_true_iff.mp h with h | h
      · rw [List.any_eq_true] at h
        obtain ⟨op, hop, hk⟩ := h
        rcases List.mem_map.mp hop with ⟨c, hc, rfl⟩
        refine ⟨l, List.mem_cons_self l rest, c,
          (dedupe_children_sublist _ _).mem hc, by simpa using hk⟩
      · simp at h
    · obtain ⟨l', hl', hc⟩ := ih _ h
      exact ⟨l', List.mem_cons_of_mem _ hl', hc⟩

/-! ## Shape of a conflict-free live `merge_group` run -/

theorem reparentChildren_noFail (wk : String) (u : List Entry) :
    ∀ st : MergeState, ∃ st' : MergeState,
      reparentChildren noFail wk u st = .ok st' ∧
      st'.trace = st.trace ++
        u.map (fun c => ApiOp.updateItem c.key c.version (withParent c.data wk)) ∧
      st'.winnerChildren = st.winnerChildren ∧
      st'.unionCollections = st.unionCollections ∧
      st'.existingTags = st.existingTags := by
  induction u with
  | nil =>
    intro st
    exact ⟨st, rfl, by simp, rfl, rfl, rfl⟩
  | cons c rest ih =>
    intro st
    obtain ⟨st', h1, h2, h3, h4, h5⟩ := ih
      { st with
        trace := st.trace ++ [ApiOp.updateItem c.key c.version (withParent c.data wk)]
        notesMoved := if c.data.itemType = some "note" then st.notesMoved + 1 else st.notesMoved
        attachmentsMoved :=
          if c.data.itemType = some "note" then st.attachmentsMoved else st.attachmentsMoved + 1 }
    refine ⟨st', ?_, ?_, h3, h4, h5⟩
    · rw [reparentChildren]
      simp only [noFail, Bool.false_eq_true, if_false]
      exact h1
    · rw [h2]
      simp

theorem stepLoser_noFail_live (w l : ItemBundle) (st : MergeState) :
    ∃ st' : MergeState, stepLoser noFail false w l st = .ok st' ∧
      st'.winnerChildren =
        st.winnerChildren ++ dedupe_children st.winnerChildren (incomingOf l) ∧
      st'.trace = st.trace ++
        loserSeg w.entry.key (dedupe_children st.winnerChildren (incomingOf l)) l ∧
      st'.unionCollections = st.unionCollections ∪ collSet l.entry.data ∧
      st'.existingTags = addLoserTags st.existingTags (pyTags l.entry.data) := by
  rw [stepLoser]
  simp only [Bool.false_eq_true, if_false]
  obtain ⟨st1, h1, h2, h3, h4, h5⟩ := reparentChildren_noFail w.entry.key
    (dedupe_children st.winnerChildren (incomingOf l))
    { st with
      unionCollections := st.unionCollections ∪ collSet l.entry.data
      existingTags := addLoserTags st.existingTags (pyTags l.entry.data) }
  rw [h1]
  simp only [noFail, Bool.false_eq_true, if_false]
  refine ⟨_, rfl, ?_, ?_, ?_, ?_⟩
  · simp [h3]
  · simp only [h2]
    simp [loserSeg]
  · simp [h4]
  · simp [h5]

theorem processLosers_noFail_live (w : ItemBundle) (ls : List ItemBundle) :
    ∀ st : MergeState, ∃ st' : MergeState,
      processLosers noFail false w ls st = .ok st' ∧
      st'.winnerChildren =
        st.winnerChildren ++ (classifyLosers st.winnerChildren ls).flatten ∧
      st'.trace = st.trace ++ liveTrace w.entry.key st.winnerChildren ls ∧
      st'.unionCollections = unionCollsAfter st.unionCollections ls ∧
      st'.existingTags = tagsAfter st.existingTags ls := by
  induction ls with
  | nil =>
    intro st
    exact ⟨st, rfl, by simp [classifyLosers], by simp [liveTrace, classifyLosers],
      rfl, rfl⟩
  | cons l rest ih =>
    intro st
    obtain ⟨st1, h1, h2, h3, h4, h5⟩ := stepLoser_noFail_live w l st
    obtain ⟨st', g1, g2, g3, g4, g5⟩ := ih st1
    refine ⟨st', ?_, ?_, ?_, ?_, ?_⟩
    · rw [processLosers, h1]
      exact g1
    · rw [g2, h2, classifyLosers]
      simp [List.append_assoc]
    · rw [g3, h3, h2, liveTrace_cons]
      simp [List.append_assoc]
    · rw [g4, h4]
      rfl
    · rw [g5, h5]
      rfl

theorem merge_group_noFail_live (bundles : List ItemBundle) (w : ItemBundle)
    (ls : List ItemBundle) (hsort : sortDesc bundles = w :: ls) :
    ∃ st : MergeState,
      processLosers noFail false w ls (initState w) = .ok st ∧
      st.winnerChildren = w.children ++ (classifyLosers w.children ls).flatten ∧
      st.trace = liveTrace w.entry.key w.children ls ∧
      st.unionCollections = unionCollsAfter (collSet w.entry.data) ls ∧
      st.existingTags = tagsAfter (initTags (pyTags w.entry.data)) ls ∧
      merge_group noFail bundles false = .ok
        (if st.unionCollections ≠ collSet w.entry.data ∨
            st.existingTags.length ≠ (pyTags w.entry.data).length then
          { st with trace := st.trace ++
            [ApiOp.updateItem w.entry.key w.entry.version (winnerNewData w st)] }
        else st) := by
  obtain ⟨st, h1, h2, h3, h4, h5⟩ := processLosers_noFail_live w ls (initState w)
  refine ⟨st, h1, by simpa [initState] using h2, by simpa [initState] using h3,
    by simpa [initState] using h4, by simpa [initState] using h5, ?_⟩
  simp only [merge_group, hsort, h1, noFail, Bool.false_eq_true, if_false]
  split
  · rfl
  · rfl

/-! ## Exception propagation (no handler below the top level) -/

theorem processLosers_error_head (fails : String → Nat → Bool) (dryRun : Bool)
    (w l : ItemBundle) (rest : List ItemBundle) (st st' : MergeState)
    (h : stepLoser fails dryRun w l st = .error st') :
    processLosers fails dryRun w (l :: rest) st = .error st' := by
  rw [processLosers, h]

theorem run_groups_error_head (fails : String → Nat → Bool) (dryRun : Bool)
    (g : List ItemBundle) (rest : List (List ItemBundle)) (st : MergeState)
    (h : merge_group fails g dryRun = .error st) :
    run_groups fails dryRun (g :: rest) = .error st.trace := by
  rw [run_groups, h]

/-! ## Lemmas about the tag dict -/

theorem addLoserTags_cons (d : List (String × Tag)) (t : Tag) (rest : List Tag) :
    addLoserTags d (t :: rest) =
      addLoserTags
        (match t.tag with
         | some s =>
           if s ≠ "" ∧ (d.find? (fun p => p.1 = s)).isNone then d ++ [(s, t)] else d
         | none => d)
        rest := rfl

theorem addLoserTags_extends (ts : List Tag) :
    ∀ d, ∃ e, addLoserTags d ts = d ++ e := by
  induction ts with
  | nil => intro d; exact ⟨[], by simp [addLoserTags]⟩
  | cons t rest ih =>
    intro d
    rw [addLoserTags_cons]
    rcases ht : t.tag with _ | s
    · simpa using ih d
    · simp only
      by_cases hc : s ≠ "" ∧ (d.find? (fun p => p.1 = s)).isNone
      · rw [if_pos hc]
        obtain ⟨e, he⟩ := ih (d ++ [(s, t)])
        exact ⟨(s, t) :: e, by rw [he]; simp⟩
      · rw [if_neg hc]
        exact ih d

theorem tagsAfter_cons (d : List (String × Tag)) (l : ItemBundle)
    (rest : List ItemBundle) :
    tagsAfter d (l :: rest) = tagsAfter (addLoserTags d (pyTags l.entry.data)) rest := rfl

theorem tagsAfter_extends (ls : List ItemBundle) :
    ∀ d, ∃ e, tagsAfter d ls = d ++ e := by
  induction ls with
  | nil => intro d; exact ⟨[], by simp [tagsAfter]⟩
  | cons l rest ih =>
    intro d
    rw [tagsAfter_cons]
    obtain ⟨e1, he1⟩ := addLoserTags_extends (pyTags l.entry.data) d
    obtain ⟨e2, he2⟩ := ih (addLoserTags d (pyTags l.entry.data))
    exact ⟨e1 ++ e2, by rw [he2, he1]; simp⟩

theorem dictSet_fresh (d : List (String × Tag)) (k : String) (v : Tag)
    (h : ∀ p ∈ d, p.1 ≠ k) : dictSet d k v = d ++ [(k, v)] := by
  have hfind : d.find? (fun p => p.1 = k) = none :=
    List.find?_eq_none.mpr (fun p hp => by simp [h p hp])
  rw [dictSet, hfind]
  simp

theorem initTags_go_wf (ts : List Tag) :
    ∀ d : List (String × Tag),
      (∀ t ∈ ts, ∃ s, t.tag = some s ∧ s ≠ "") →
      (ts.filterMap Tag.tag).Nodup →
      (∀ t ∈ ts, ∀ s, t.tag = some s → ∀ p ∈ d, p.1 ≠ s) →
      ts.foldl
        (fun d t =>
          match t.tag with
          | some s => if s ≠ "" then dictSet d s t else d
          | none => d)
        d =
        d ++ ts.map (fun t => (t.tag.getD "", t)) := by
  induction ts with
  | nil => intro d _ _ _; simp
  | cons t rest ih =>
    intro d hall hnd hfresh
    obtain ⟨s, hs, hne⟩ := hall t (List.mem_cons_self _ _)
    have hnds : s ∉ rest.filterMap Tag.tag ∧ (rest.filterMap Tag.tag).Nodup := by
      rw [List.filterMap_cons, hs] at hnd
      exact List.nodup_cons.mp hnd
    rw [List.foldl_cons]
    have hstep :
        (match t.tag with
         | some s => if s ≠ "" then dictSet d s t else d
         | none => d) = d ++ [(s, t)] := by
      rw [hs]
      simp only [hne, ne_eq, not_false_eq_true, if_true]
      exact dictSet_fresh d s t (hfresh t (List.mem_cons_self _ _) s hs)
    rw [hstep, ih (d ++ [(s, t)])]
    · rw [List.map_cons, hs]
      simp
    · exact fun t' ht' => hall t' (List.mem_cons_of_mem _ ht')
    · exact hnds.2
    · intro t' ht' s' hs' p hp
      rcases List.mem_append.mp hp with hd | hsingle
      · exact hfresh t' (List.mem_cons_of_mem _ ht') s' hs' p hd
      · have hp1 : p.1 = s := by
          rcases List.mem_singleton.mp hsingle with rfl
          rfl
        rw [hp1]
        intro heq
        exact hnds.1 (heq ▸ List.mem_filterMap.mpr ⟨t', ht', hs'⟩)

theorem initTags_wf (ts : List Tag)
    (hall : ∀ t ∈ ts, ∃ s, t.tag = some s ∧ s ≠ "")
    (hnd : (ts.filterMap Tag.tag).Nodup) :
    initTags ts = ts.map (fun t => (t.tag.getD "", t)) := by
  have := initTags_go_wf ts [] hall hnd (by intro t ht s hs p hp; simp at hp)
  simpa [initTags] using this

/-! ## Lemmas about the survivor sort -/

theorem sortDesc_cons (x : ItemBundle) (xs : List ItemBundle) :
    sortDesc (x :: xs) = insertDesc x (sortDesc xs) := rfl

theorem insertDesc_length (b : ItemBundle) (l : List ItemBundle) :
    (insertDesc b l).length = l.length + 1 := by
  induction l with
  | nil => rfl
  | cons c rest ih =>
    rw [insertDesc]
    split
    · simpa using ih
    · simp

theorem sortDesc_length (l : List ItemBundle) : (sortDesc l).length = l.length := by
  induction l with
  | nil => rfl
  | cons x xs ih =>
    rw [sortDesc_cons, insertDesc_length, ih]
    simp

theorem sortDesc_eq_nil_iff (l : List ItemBundle) : sortDesc l = [] ↔ l = [] := by
  constructor
  · intro h
    have := sortDesc_length l
    rw [h] at this
    exact List.length_eq_zero.mp this.symm
  · rintro rfl
    rfl

theorem insertDesc_head? (b c : ItemBundle) (rest : List ItemBundle) :
    (insertDesc b (c :: rest)).head? =
      some (if scoreLt (scoreTuple b) (scoreTuple c) then c else b) := by
  rw [insertDesc]
  split
  · rename_i h
    simp [h]
  · rename_i h
    simp [h]

theorem find?_congr_mem {α : Type} {p q : α → Bool} :
    ∀ l : List α, (∀ a ∈ l, p a = q a) → l.find? p = l.find? q := by
  intro l
  induction l with
  | nil => intro _; rfl
  | cons a rest ih =>
    intro h
    have ha := h a (List.mem_cons_self a rest)
    rw [List.find?_cons, List.find?_cons, ha]
    cases hq : q a
    · exact ih (fun b hb => h b (List.mem_cons_of_mem a hb))
    · rfl

theorem sortDesc_head_spec :
    ∀ (l : List ItemBundle) (w : ItemBundle), (sortDesc l).head? = some w →
      w ∈ l ∧ (∀ b ∈ l, ¬ scoreLt (scoreTuple w) (scoreTuple b)) ∧
      l.find? (fun b => l.all fun c => !decide (scoreLt (scoreTuple b) (scoreTuple c)))
        = some w := by
  intro l
  induction l with
  | nil => intro w hw; simp [sortDesc] at hw
  | cons x xs ih =>
    intro w hw
    rw [sortDesc_cons] at hw
    rcases hxs : sortDesc xs with _ | ⟨c, r⟩
    · have hxe : xs = [] := (sortDesc_eq_nil_iff xs).mp hxs
      subst hxe
      rw [hxs] at hw
      simp only [insertDesc, List.head?_cons, Option.some.injEq] at hw
      subst hw
      refine ⟨List.mem_cons_self _ _, ?_, ?_⟩
      · intro b hb
        rcases List.mem_singleton.mp hb with rfl
        exact scoreLt_irrefl _
      · rw [List.find?_cons_of_pos]
        simp [scoreLt_irrefl]
    · rw [hxs, insertDesc_head?] at hw
      obtain ⟨hcmem, hcmax, hcfind⟩ := ih c (by rw [hxs]; rfl)
      by_cases hlt : scoreLt (scoreTuple x) (scoreTuple c)
      · rw [if_pos hlt] at hw
        injection hw with hcw
        subst hcw
        refine ⟨List.mem_cons_of_mem _ hcmem, ?_, ?_⟩
        · intro b hb
          rcases List.mem_cons.mp hb with rfl | hb
          · exact fun hcx => scoreLt_asymm hlt hcx
          · exact hcmax b hb
        · have hpx : ¬ ((x :: xs).all
              fun b => !decide (scoreLt (scoreTuple x) (scoreTuple b))) = true := by
            rw [List.all_eq_true]
            push_neg
            exact ⟨c, List.mem_cons_of_mem _ hcmem, by simp [hlt]⟩
          refine Eq.trans (List.find?_cons_of_neg _ ?_)
            (Eq.trans (find?_congr_mem xs ?_) hcfind)
          · exact hpx
          · intro b hb
            by_cases hall : (xs.all
                fun d => !decide (scoreLt (scoreTuple b) (scoreTuple d))) = true
            · have hnbc : ¬ scoreLt (scoreTuple b) (scoreTuple c) := by
                simpa using List.all_eq_true.mp hall c hcmem
              have hnbx : ¬ scoreLt (scoreTuple b) (scoreTuple x) := by
                intro hbx
                exact hnbc (scoreLt_trans hbx hlt)
              simp [List.all_cons, hall, hnbx]
            · rw [Bool.not_eq_true] at hall
              simp [List.all_cons, hall]
      · rw [if_neg hlt] at hw
        injection hw with hxw
        subst hxw
        have hmax : ∀ b ∈ x :: xs, ¬ scoreLt (scoreTuple x) (scoreTuple b) := by
          intro b hb
          rcases List.mem_cons.mp hb with rfl | hb
          · exact scoreLt_irrefl _
          · intro hxb
            rcases scoreLt_trichotomy (scoreTuple b) (scoreTuple c) with hbc | hbc | hbc
            · exact hlt (scoreLt_trans hxb hbc)
            · exact hlt (hbc ▸ hxb)
            · exact (hcmax b hb) hbc
        refine ⟨List.mem_cons_self _ _, hmax, ?_⟩
        have hpx : ((x :: xs).all
            fun b => !decide (scoreLt (scoreTuple x) (scoreTuple b))) = true := by
          rw [List.all_eq_true]
          intro b hb
          simpa using hmax b hb
        exact List.find?_cons_of_pos _ hpx

/-! ## Lemmas about grouping and the title key -/

theorem findFourDigits_ne_empty : ∀ cs y, findFourDigits cs = some y → y ≠ "" := by
  intro cs
  induction cs with
  | nil => intro y h; simp [findFourDigits] at h
  | cons c rest ih =>
    intro y h
    rcases rest with _ | ⟨d1, _ | ⟨d2, _ | ⟨d3, tail⟩⟩⟩
    · simp [findFourDigits] at h
    · simp [findFourDigits] at h
    · simp [findFourDigits] at h
    · rw [findFourDigits] at h
      split at h
      · simp only [Option.some.injEq] at h
        subst h
        intro hcon
        simpa using congrArg String.data hcon
      · exact ih y h

theorem group_items_key_aux (mode : GroupMode) (entries : List Entry) :
    ∀ gs : List ((String × String) × List Entry),
      (∀ g ∈ gs, ∀ e ∈ g.2, canonical_group_key e.data mode = some g.1) →
      ∀ g ∈ entries.foldl
        (fun gs e =>
          if e.data.itemType = some "note" ∨ e.data.itemType = some "attachment" then gs
          else
            match canonical_group_key e.data mode with
            | none => gs
            | some k => addToGroups gs k e)
        gs,
        ∀ e ∈ g.2, canonical_group_key e.data mode = some g.1 := by
  induction entries with
  | nil => intro gs h; exact h
  | cons a rest ih =>
    intro gs h
    rw [List.foldl_cons]
    apply ih
    split
    · exact h
    · rcases hk : canonical_group_key a.data mode with _ | k
      · exact h
      · simp only [addToGroups]
        split
        · intro g hg e he
          rcases List.mem_map.mp hg with ⟨g0, hg0, rfl⟩
          by_cases hgk : g0.1 = k
          · rw [if_pos hgk] at he ⊢
            simp only at he ⊢
            rcases List.mem_append.mp he with hold | hnew
            · exact h g0 hg0 e hold
            · rcases List.mem_singleton.mp hnew with rfl
              rw [hgk]
              exact hk
          · rw [if_neg hgk] at he ⊢
            exact h g0 hg0 e he
        · intro g hg e he
          rcases List.mem_append.mp hg with hold | hnew
          · exact h g hold e he
          · rcases List.mem_singleton.mp hnew with rfl
            rcases List.mem_singleton.mp he with rfl
            exact hk

theorem group_items_key (entries : List Entry) (mode : GroupMode) :
    ∀ g ∈ group_items entries mode, ∀ e ∈ g.2,
      canonical_group_key e.data mode = some g.1 := by
  apply group_items_key_aux
  intro g hg
  simp at hg

theorem title_key_of_falsy (data : ItemData) (h : truthyS data.title = false) :
    title_key data = none := by
  rw [title_key, h]
  rfl

theorem title_key_of_short (data : ItemData) (t : String) (ht : data.title = some t)
    (hlen : (normalize_title t).length < 8) : title_key data = none := by
  rw [title_key, ht]
  by_cases he : t = ""
  · subst he
    rfl
  · have : truthyS (some t) = true := by simp [truthyS, he]
    rw [this]
    simp only [if_true, pyOrStr]
    rw [if_pos hlen]

theorem title_key_of_year (data : ItemData) (t y : String) (ht : data.title = some t)
    (hte : t ≠ "") (hlen : ¬ (normalize_title t).length < 8)
    (hy : data.year = some y) (hye : y ≠ "") :
    title_key data = some (normalize_title t ++ "|" ++ y) := by
  rw [title_key, ht]
  have h1 : truthyS (some t) = true := by simp [truthyS, hte]
  rw [h1]
  simp only [if_true, pyOrStr]
  rw [if_neg hlen, hy]
  have h2 : truthyS (some y) = true := by simp [truthyS, hye]
  rw [h2]
  simp only [if_true, pyOrStr]
  rw [if_neg hye]

theorem title_key_of_date (data : ItemData) (t y : String) (ht : data.title = some t)
    (hte : t ≠ "") (hlen : ¬ (normalize_title t).length < 8)
    (hy : truthyS data.year = false)
    (hd : findFourDigits (pyOrStr data.date).toList = some y) :
    title_key data = some (normalize_title t ++ "|" ++ y) := by
  have hye : y ≠ "" := findFourDigits_ne_empty _ y hd
  rw [title_key, ht]
  have h1 : truthyS (some t) = true := by simp [truthyS, hte]
  rw [h1]
  simp only [if_true, pyOrStr] at hd ⊢
  rw [if_neg hlen, hy]
  simp only [Bool.false_eq_true, if_false]
  rw [hd]
  simp only [if_neg hye]

theorem title_key_of_no_year (data : ItemData) (t : String) (ht : data.title = some t)
    (hte : t ≠ "") (hlen : ¬ (normalize_title t).length < 8)
    (hy : truthyS data.year = false)
    (hd : findFourDigits (pyOrStr data.date).toList = none) :
    title_key data = some (normalize_title t) := by
  rw [title_key, ht]
  have h1 : truthyS (some t) = true := by simp [truthyS, hte]
  rw [h1]
  simp only [if_true, pyOrStr] at hd ⊢
  rw [if_neg hlen, hy]
  simp only [Bool.false_eq_true, if_false]
  rw [hd]
  simp

theorem normalize_title_ne_empty (t : String) (hlen : ¬ (normalize_title t).length < 8) :
    normalize_title t ≠ "" := by
  intro he
  rw [he] at hlen
  simp at hlen

theorem mode_title_key (data : ItemData) :
    canonical_group_key data .title =
      if truthyS (title_key data) then some ("title", pyOrStr (title_key data))
      else none := rfl

theorem append_pipe_ne_empty (a b : String) : a ++ "|" ++ b ≠ "" := by
  intro he
  have hd := congrArg String.data he
  simp only [String.data_append, List.append_eq_nil] at hd
  exact absurd hd.1.2 (by decide)

theorem mode_auto_key (data : ItemData) :
    canonical_group_key data .auto =
      if truthyS (doiKeyOpt data) then some ("doi", pyOrStr (doiKeyOpt data))
      else if truthyS (urlKeyOpt data) then some ("url", pyOrStr (urlKeyOpt data))
      else if truthyS (title_key data) then some ("title", pyOrStr (title_key data))
      else none := rfl

/-! ## The claims -/

/-- C6: in title mode, `canonical_group_key` returns none when the title is
missing/empty or its normalization (lower-cased, whitespace-collapsed,
non-alphanumerics stripped) is shorter than 8 characters; otherwise it
returns `title|year` with the year taken from the year field or, failing a
truthy year field, from the first 4-digit run of the date string, and the
bare normalized title when no year is found.  Consequently a record whose
title-mode key is none (in particular one with a too-short normalized title)
is never placed in any group by the grouping loop. -/
theorem C6_title_mode (data : ItemData) :
    (truthyS data.title = false → canonical_group_key data .title = none)
    ∧ (∀ t, data.title = some t → (normalize_title t).length < 8 →
        canonical_group_key data .title = none)
    ∧ (∀ t, data.title = some t → t ≠ "" → ¬ (normalize_title t).length < 8 →
        ∀ y, data.year = some y → y ≠ "" →
          canonical_group_key data .title =
            some ("title", normalize_title t ++ "|" ++ y))
    ∧ (∀ t, data.title = some t → t ≠ "" → ¬ (normalize_title t).length < 8 →
        truthyS data.year = false →
        ∀ y, findFourDigits (pyOrStr data.date).toList = some y →
          canonical_group_key data .title =
            some ("title", normalize_title t ++ "|" ++ y))
    ∧ (∀ t, data.title = some t → t ≠ "" → ¬ (normalize_title t).length < 8 →
        truthyS data.year = false →
        findFourDigits (pyOrStr data.date).toList = none →
          canonical_group_key data .title = some ("title", normalize_title t))
    ∧ (canonical_group_key data .title = none →
        ∀ entries : List Entry, ∀ g ∈ group_items entries .title, ∀ e ∈ g.2,
          e.data ≠ data) := by
  refine ⟨?_, ?_, ?_, ?_, ?_, ?_⟩
  · intro h
    rw [mode_title_key, title_key_of_falsy data h]
    rfl
  · intro t ht hlen
    rw [mode_title_key, title_key_of_short data t ht hlen]
    rfl
  · intro t ht hte hlen y hy hye
    rw [mode_title_key, title_key_of_year data t y ht hte hlen hy hye]
    have h1 : truthyS (some (normalize_title t ++ "|" ++ y)) = true := by
      simp [truthyS, append_pipe_ne_empty]
    rw [h1]
    simp [pyOrStr]
  · intro t ht hte hlen hy y hd
    rw [mode_title_key, title_key_of_date data t y ht hte hlen hy hd]
    have h1 : truthyS (some (normalize_title t ++ "|" ++ y)) = true := by
      simp [truthyS, append_pipe_ne_empty]
    rw [h1]
    simp [pyOrStr]
  · intro t ht hte hlen hy hd
    rw [mode_title_key, title_key_of_no_year data t ht hte hlen hy hd]
    have h1 : truthyS (some (normalize_title t)) = true := by
      simp [truthyS, normalize_title_ne_empty t hlen]
    rw [h1]
    simp [pyOrStr]
  · intro hnone entries g hg e he hdata
    have := group_items_key entries .title g hg e he
    rw [hdata, hnone] at this
    exact Option.noConfusion this

/-- C7 (amended): auto mode returns the identifier key when the cleaned DOI
is truthy, else the link key when the processed URL is truthy, else the
title key when that is truthy, else none; hence two records with the same
truthy cleaned identifier always receive the same key regardless of their
titles, and two records with no truthy identifier, no truthy link, and equal
title keys receive the same key.  (The claim's stronger clause — that equal
`title|year` keys suffice whenever no identifier is present — fails when the
records carry different links; see the counterexample.) -/
theorem C7_auto_fallback :
    (∀ data : ItemData, truthyS (doiKeyOpt data) = true →
        canonical_group_key data .auto = some ("doi", pyOrStr (doiKeyOpt data)))
    ∧ (∀ data : ItemData, truthyS (doiKeyOpt data) = false →
        truthyS (urlKeyOpt data) = true →
        canonical_group_key data .auto = some ("url", pyOrStr (urlKeyOpt data)))
    ∧ (∀ data : ItemData, truthyS (doiKeyOpt data) = false →
        truthyS (urlKeyOpt data) = false → truthyS (title_key data) = true →
        canonical_group_key data .auto = some ("title", pyOrStr (title_key data)))
    ∧ (∀ data : ItemData, truthyS (doiKeyOpt data) = false →
        truthyS (urlKeyOpt data) = false → truthyS (title_key data) = false →
        canonical_group_key data .auto = none)
    ∧ (∀ d1 d2 : ItemData, doiKeyOpt d1 = doiKeyOpt d2 →
        truthyS (doiKeyOpt d1) = true →
        canonical_group_key d1 .auto = canonical_group_key d2 .auto)
    ∧ (∀ d1 d2 : ItemData, truthyS (doiKeyOpt d1) = false →
        truthyS (doiKeyOpt d2) = false → truthyS (urlKeyOpt d1) = false →
        truthyS (urlKeyOpt d2) = false → title_key d1 = title_key d2 →
        canonical_group_key d1 .auto = canonical_group_key d2 .auto) := by
  refine ⟨?_, ?_, ?_, ?_, ?_, ?_⟩
  · intro data h
    rw [mode_auto_key, h]
    rfl
  · intro data h1 h2
    rw [mode_auto_key, h1, h2]
    rfl
  · intro data h1 h2 h3
    rw [mode_auto_key, h1, h2, h3]
    rfl
  · intro data h1 h2 h3
    rw [mode_auto_key, h1, h2, h3]
    rfl
  · intro d1 d2 heq h1
    have h2 : truthyS (doiKeyOpt d2) = true := heq ▸ h1
    rw [mode_auto_key, mode_auto_key, heq, h2]
    rfl
  · intro d1 d2 h1 h2 h3 h4 htk
    rw [mode_auto_key, mode_auto_key, h1, h2, h3, h4, htk]
    rfl

/-- C7 counterexample: these two records have equal truthy title keys and no
identifier, yet different links give them different auto keys, so they are
not grouped together — refuting the claim's clause that identical
`title|year` with no identifiers suffices under auto mode. -/
theorem C7_counterexample :
    doiKeyOpt exD1 = none ∧ doiKeyOpt exD2 = none
    ∧ title_key exD1 = title_key exD2 ∧ (title_key exD1).isSome = true
    ∧ canonical_group_key exD1 .auto ≠ canonical_group_key exD2 .auto := by
  decide

/-- C8: `parse_iso8601` maps a missing, empty or unparsable timestamp to the
epoch (0), and a parsable one to its parsed instant (never to the current
time — the function is pure and mentions no clock); `build_bundle` uses it
for both recency facets, so a record with absent or corrupt timestamps gets
the epoch on both facets and can never strictly outrank a record with
at-or-after-epoch timestamps when the other three facets are equal. -/
theorem C8_timestamps :
    parse_iso8601 none = 0
    ∧ parse_iso8601 (some "") = 0
    ∧ (∀ s, fromisoformat (zfix s) = none → parse_iso8601 (some s) = 0)
    ∧ (∀ s t, fromisoformat (zfix s) = some t → parse_iso8601 (some s) = t)
    ∧ (∀ (entry : Entry) (children : List Entry),
        entry.data.dateModified = none ∨ entry.data.dateModified = some "" ∨
          fromisoformat (zfix (pyOrStr entry.data.dateModified)) = none →
        (build_bundle entry children).modified = 0)
    ∧ (∀ (entry : Entry) (children : List Entry),
        entry.data.dateAdded = none ∨ entry.data.dateAdded = some "" ∨
          fromisoformat (zfix (pyOrStr entry.data.dateAdded)) = none →
        (build_bundle entry children).added = 0)
    ∧ (∀ b b' : ItemBundle, b'.has_pdf = b.has_pdf →
        b'.attachments.length = b.attachments.length →
        b'.notes.length = b.notes.length →
        b'.modified = 0 → b'.added = 0 → 0 ≤ b.modified → 0 ≤ b.added →
        ¬ scoreLt (scoreTuple b) (scoreTuple b')) := by
  refine ⟨rfl, rfl, ?_, ?_, ?_, ?_, ?_⟩
  · intro s h
    rw [parse_iso8601]
    by_cases hs : s = ""
    · rw [if_pos hs]
    · rw [if_neg hs, h]
      rfl
  · intro s t h
    by_cases hs : s = ""
    · subst hs
      rw [show fromisoformat (zfix "") = none from rfl] at h
      exact Option.noConfusion h
    · rw [parse_iso8601, if_neg hs, h]
      rfl
  · intro entry children hdm
    show parse_iso8601 entry.data.dateModified = 0
    rcases hv : entry.data.dateModified with _ | v
    · rfl
    · rw [hv] at hdm
      rcases hdm with h | h | h
      · exact Option.noConfusion h
      · rw [h]
        rfl
      · simp only [pyOrStr] at h
        rw [parse_iso8601]
        by_cases hve : v = ""
        · rw [if_pos hve]
        · rw [if_neg hve, h]
          rfl
  · intro entry children hda
    show parse_iso8601 entry.data.dateAdded = 0
    rcases hv : entry.data.dateAdded with _ | v
    · rfl
    · rw [hv] at hda
      rcases hda with h | h | h
      · exact Option.noConfusion h
      · rw [h]
        rfl
      · simp only [pyOrStr] at h
        rw [parse_iso8601]
        by_cases hve : v = ""
        · rw [if_pos hve]
        · rw [if_neg hve, h]
          rfl
  · intro b b' h1 h2 h3 h4 h5 h6 h7 hcon
    simp only [scoreTuple, h1, h2, h3, h4, h5, scoreLt] at hcon
    rcases hcon with h | ⟨-, h | ⟨-, h | ⟨-, h | ⟨-, h⟩⟩⟩⟩
    · exact lt_irrefl _ h
    · exact lt_irrefl _ h
    · exact lt_irrefl _ h
    · omega
    · omega

/-- C10: `dedupe_children` returns a sublist of the incoming children (so in
input order) whose signatures are pairwise distinct and disjoint from the
existing children's signatures; every incoming signature that is new
relative to the existing children is represented, and — because the kept
signatures are pairwise distinct — at most one child per signature is kept
even when duplicates occur inside the same incoming batch. -/
theorem C10_dedupe_children (existing incoming : List Entry) :
    (dedupe_children existing incoming).Sublist incoming
    ∧ ((dedupe_children existing incoming).map child_signature).Nodup
    ∧ (∀ c ∈ dedupe_children existing incoming,
        child_signature c ∉ existing.map child_signature)
    ∧ (∀ c ∈ incoming, child_signature c ∉ existing.map child_signature →
        ∃ d ∈ dedupe_children existing incoming,
          child_signature d = child_signature c) := by
  refine ⟨dedupe_children_sublist _ _, dedupe_children_sig_nodup _ _,
    dedupe_children_not_in_ex _ _, ?_⟩
  intro c hc hnot
  have hmem := (dedupe_children_sig_set existing incoming (child_signature c)).mpr
    (by
      rw [List.map_append]
      exact List.mem_append.mpr (Or.inr (List.mem_map_of_mem _ hc)))
  rw [List.map_append, List.mem_append] at hmem
  rcases hmem with h | h
  · exact absurd h hnot
  · rcases List.mem_map.mp h with ⟨d, hd, hsig⟩
    exact ⟨d, hd, hsig⟩

/-- C3: the bundle the script keeps (`sorted(bundles, key=score,
reverse=True)[0]`) is maximal in the lexicographic order on
`(has_primary_file, attachment_count, note_count, modified, added)`; it is
the first input bundle whose score tuple is maximal (a full tie keeps the
first-encountered bundle); and a bundle without a primary file is never kept
while some bundle has one. -/
theorem C3_survivor_selection (bundles : List ItemBundle) (w : ItemBundle)
    (hw : (sortDesc bundles).head? = some w) :
    (∀ b ∈ bundles, ¬ scoreLt (scoreTuple w) (scoreTuple b))
    ∧ bundles.find?
        (fun b => bundles.all fun c => !decide (scoreLt (scoreTuple b) (scoreTuple c)))
        = some w
    ∧ (∀ b ∈ bundles, b.has_pdf = true → w.has_pdf = true) := by
  obtain ⟨hmem, hmax, hfind⟩ := sortDesc_head_spec bundles w hw
  refine ⟨hmax, hfind, ?_⟩
  intro b hb hpdf
  by_contra hw'
  rw [Bool.not_eq_true] at hw'
  exact hmax b hb (by simp [scoreTuple, scoreLt, hpdf, hw'])

/-- C3 witness: the selection theorem applied to the concrete two-bundle
group `[exL2, exW]`, whose survivor is `exW`. -/
theorem C3_witness :
    (∀ b ∈ [exL2, exW], ¬ scoreLt (scoreTuple exW) (scoreTuple b))
    ∧ List.find?
        (fun b => [exL2, exW].all fun c => !decide (scoreLt (scoreTuple b) (scoreTuple c)))
        [exL2, exW] = some exW
    ∧ (∀ b ∈ [exL2, exW], b.has_pdf = true → exW.has_pdf = true) :=
  C3_survivor_selection [exL2, exW] exW (by decide)

/-- C4: in a conflict-free live merge, the survivor's final child list is its
original children plus, per loser in rank order, exactly the incoming
children kept by `dedupe_children`; a child of the `i`-th loser is kept iff
its signature is absent from the survivor's children at that point (the
original children plus everything moved from earlier losers) and it is the
first child of its own batch carrying that signature (matching the live
store, where each batch's children are re-parented one by one); when the
survivor's original children have pairwise-distinct signatures the final
child list has exactly one child per signature; and the final signature set
is exactly the union of the original signatures and all losers' incoming
signatures (so a loser's note identical to an existing survivor note adds
nothing). -/
theorem C4_child_reconciliation (bundles : List ItemBundle) (w : ItemBundle)
    (ls : List ItemBundle) (st : MergeState)
    (hsort : sortDesc bundles = w :: ls)
    (hok : merge_group noFail bundles false = .ok st) :
    st.winnerChildren = w.children ++ (classifyLosers w.children ls).flatten
    ∧ (∀ i, i < ls.length → ∀ c,
        (c ∈ (classifyLosers w.children ls).getD i [] ↔
          child_signature c ∉
              (w.children ++ ((classifyLosers w.children ls).take i).flatten).map
                child_signature
            ∧ (incomingOf (ls.getD i emptyBundle)).find?
                (fun d => child_signature d = child_signature c) = some c))
    ∧ ((w.children.map child_signature).Nodup →
        (st.winnerChildren.map child_signature).Nodup)
    ∧ (∀ a : Sig, a ∈ st.winnerChildren.map child_signature ↔
        a ∈ (w.children ++ (ls.map incomingOf).flatten).map child_signature) := by
  obtain ⟨st0, h1, h2, h3, h4, h5, h6⟩ := merge_group_noFail_live bundles w ls hsort
  rw [hok] at h6
  injection h6 with heq
  have hwc : st.winnerChildren = st0.winnerChildren := by
    rw [heq]
    split
    · rfl
    · rfl
  refine ⟨hwc ▸ h2, ?_, ?_, ?_⟩
  · intro i hi c
    rw [classifyLosers_getD w.children ls i hi, dedupe_children_mem_iff]
  · intro hnd
    rw [hwc, h2]
    exact classifyLosers_nodup w.children ls hnd
  · intro a
    rw [hwc, h2]
    exact classifyLosers_sig_set w.children ls a

/-- C4 witness: the reconciliation theorem applied to the live merge of
`[exW, exL1, exL2]` (the "no data loss" conjunct at the duplicate note's
signature). -/
theorem C4_witness :
    exStLive.winnerChildren =
      exW.children ++ (classifyLosers exW.children [exL1, exL2]).flatten :=
  (C4_child_reconciliation [exW, exL1, exL2] exW [exL1, exL2] exStLive
    (by decide) (by decide)).1

/-- C9: in a conflict-free live merge, the delete of every loser appears in
the trace, and the trace up to that delete already holds the re-parent
update of every child of that loser selected for re-parenting — no loser is
deleted before its kept children have been re-parented to the survivor. -/
theorem C9_reparent_before_delete (bundles : List ItemBundle) (w : ItemBundle)
    (ls : List ItemBundle) (st : MergeState)
    (hsort : sortDesc bundles = w :: ls)
    (hok : merge_group noFail bundles false = .ok st) :
    ∀ i, i < ls.length →
      ∃ pre post,
        st.trace = pre ++
          ApiOp.deleteItem (ls.getD i emptyBundle).entry.key
            (ls.getD i emptyBundle).entry.version :: post
        ∧ ∀ c ∈ (classifyLosers w.children ls).getD i [],
            ApiOp.updateItem c.key c.version (withParent c.data w.entry.key) ∈ pre := by
  obtain ⟨st0, h1, h2, h3, h4, h5, h6⟩ := merge_group_noFail_live bundles w ls hsort
  rw [hok] at h6
  injection h6 with heq
  have htr : ∃ tail, st.trace = liveTrace w.entry.key w.children ls ++ tail := by
    rw [heq]
    by_cases hc : st0.unionCollections ≠ collSet w.entry.data ∨
        st0.existingTags.length ≠ (pyTags w.entry.data).length
    · rw [if_pos hc]
      exact ⟨_, by rw [← h3]⟩
    · rw [if_neg hc]
      exact ⟨[], by rw [← h3]; simp⟩
  obtain ⟨tail, htail⟩ := htr
  intro i hi
  obtain ⟨pre, post, hdec, hmem⟩ := liveTrace_delete_decomp w.entry.key w.children ls i hi
  refine ⟨pre, post ++ tail, ?_, hmem⟩
  rw [htail, hdec]
  simp

/-- C9 witness: the ordering theorem applied to the live merge of
`[exW, exL1, exL2]` at the first loser. -/
theorem C9_witness :
    ∃ pre post,
      exStLive.trace = pre ++
        ApiOp.deleteItem (([exL1, exL2] : List ItemBundle).getD 0 emptyBundle).entry.key
          (([exL1, exL2] : List ItemBundle).getD 0 emptyBundle).entry.version :: post
      ∧ ∀ c ∈ (classifyLosers exW.children [exL1, exL2]).getD 0 [],
          ApiOp.updateItem c.key c.version (withParent c.data exW.entry.key) ∈ pre :=
  C9_reparent_before_delete [exW, exL1, exL2] exW [exL1, exL2] exStLive
    (by decide) (by decide) 0 (by decide)

/-- C5 (amended): in a conflict-free live merge whose survivor's original
tags carry pairwise-distinct non-empty labels (the well-formed case), a
survivor update is issued iff the folder-membership set or the tag-label
list actually changed over the losers; and a group already collapsed to the
survivor alone issues no write at all.  (On a survivor whose raw tag list
repeats or blanks a label the script's length test misfires; see the
counterexample.) -/
theorem C5_survivor_update_iff (bundles : List ItemBundle) (w : ItemBundle)
    (ls : List ItemBundle) (st : MergeState)
    (hsort : sortDesc bundles = w :: ls)
    (hok : merge_group noFail bundles false = .ok st)
    (hall : ∀ t ∈ pyTags w.entry.data, ∃ s, t.tag = some s ∧ s ≠ "")
    (hnd : ((pyTags w.entry.data).filterMap Tag.tag).Nodup)
    (hkeys : ∀ l ∈ ls, ∀ c ∈ incomingOf l, c.key ≠ w.entry.key) :
    (hasUpdateFor st.trace w.entry.key = true ↔
      (unionCollsAfter (collSet w.entry.data) ls ≠ collSet w.entry.data ∨
        (tagsAfter (initTags (pyTags w.entry.data)) ls).map Prod.fst ≠
          (initTags (pyTags w.entry.data)).map Prod.fst))
    ∧ (ls = [] → st.trace = []) := by
  obtain ⟨st0, h1, h2, h3, h4, h5, h6⟩ := merge_group_noFail_live bundles w ls hsort
  rw [hok] at h6
  injection h6 with heq
  have hlt : hasUpdateFor (liveTrace w.entry.key w.children ls) w.entry.key = false := by
    by_contra hcon
    rw [Bool.not_eq_false] at hcon
    obtain ⟨l, hl, c, hc, hck⟩ := liveTrace_update_keys _ _ _ _ hcon
    exact hkeys l hl c hc hck
  obtain ⟨ext, hext⟩ := tagsAfter_extends ls (initTags (pyTags w.entry.data))
  have hinit := initTags_wf (pyTags w.entry.data) hall hnd
  have hlen0 : (initTags (pyTags w.entry.data)).length = (pyTags w.entry.data).length := by
    rw [hinit, List.length_map]
  have hlen : ((tagsAfter (initTags (pyTags w.entry.data)) ls).length ≠
      (pyTags w.entry.data).length) ↔
      ((tagsAfter (initTags (pyTags w.entry.data)) ls).map Prod.fst ≠
        (initTags (pyTags w.entry.data)).map Prod.fst) := by
    rw [hext]
    rcases eq_or_ne ext [] with rfl | hne
    · simp [hlen0]
    · have hpos : 0 < ext.length := List.length_pos.mpr hne
      constructor
      · intro _ hmape
        have hlc := congrArg List.length hmape
        rw [List.length_map, List.length_map, List.length_append] at hlc
        omega
      · intro _ hlene
        rw [List.length_append, hlen0] at hlene
        omega
  have hcond : (st0.unionCollections ≠ collSet w.entry.data ∨
      st0.existingTags.length ≠ (pyTags w.entry.data).length) ↔
      (unionCollsAfter (collSet w.entry.data) ls ≠ collSet w.entry.data ∨
        (tagsAfter (initTags (pyTags w.entry.data)) ls).map Prod.fst ≠
          (initTags (pyTags w.entry.data)).map Prod.fst) := by
    rw [h4, h5]
    exact or_congr Iff.rfl hlen
  constructor
  · by_cases hc : st0.unionCollections ≠ collSet w.entry.data ∨
        st0.existingTags.length ≠ (pyTags w.entry.data).length
    · rw [heq, if_pos hc]
      have hupd : hasUpdateFor (st0.trace ++
          [ApiOp.updateItem w.entry.key w.entry.version (winnerNewData w st0)])
          w.entry.key = true := by
        rw [hasUpdateFor, List.any_append]
        apply Bool.or_eq_true_iff.mpr
        right
        simp
      exact ⟨fun _ => hcond.mp hc, fun _ => hupd⟩
    · rw [heq, if_neg hc, h3, hlt]
      simp only [Bool.false_eq_true, false_iff]
      exact fun hr => hc (hcond.mpr hr)
  · intro hls
    subst hls
    have hc : ¬ (st0.unionCollections ≠ collSet w.entry.data ∨
        st0.existingTags.length ≠ (pyTags w.entry.data).length) := by
      rw [h4, h5]
      push_neg
      exact ⟨rfl, hlen0⟩
    rw [heq, if_neg hc, h3]
    simp [liveTrace, classifyLosers]

/-- C5 witness: the update-iff-changed theorem applied to the well-formed
group `[exOkW, exOkL]`, in which nothing changes and no survivor update is
issued. -/
theorem C5_witness :
    hasUpdateFor exStOk.trace exOkW.entry.key = true ↔
      (unionCollsAfter (collSet exOkW.entry.data) [exOkL] ≠ collSet exOkW.entry.data ∨
        (tagsAfter (initTags (pyTags exOkW.entry.data)) [exOkL]).map Prod.fst ≠
          (initTags (pyTags exOkW.entry.data)).map Prod.fst) :=
  (C5_survivor_update_iff [exOkW, exOkL] exOkW [exOkL] exStOk (by decide) (by decide)
    (by
      intro t ht
      rw [show pyTags exOkW.entry.data = [exTagA] from rfl] at ht
      rcases List.mem_singleton.mp ht with rfl
      exact ⟨"a", rfl, by decide⟩)
    (by decide) (by decide)).1

/-- C5 counterexample: a survivor whose raw tag list repeats the label "a"
and a loser contributing nothing: the script issues a survivor update write
although the collections set, the tag-label set and the tag-value set are
all unchanged — refuting "an update write iff something actually changed"
and the zero-write idempotence consequence. -/
theorem C5_counterexample :
    hasUpdateFor (traceOf (merge_group noFail [exTagW, exTagL] false)) "W2" = true
    ∧ unionCollsAfter (collSet exTagW.entry.data) [exTagL] = collSet exTagW.entry.data
    ∧ ((tagsAfter (initTags (pyTags exTagW.entry.data)) [exTagL]).map Prod.fst).toFinset =
        ((pyTags exTagW.entry.data).filterMap Tag.tag).toFinset
    ∧ ((tagsAfter (initTags (pyTags exTagW.entry.data)) [exTagL]).map Prod.snd).toFinset =
        (pyTags exTagW.entry.data).toFinset := by
  decide

/-- C2 counterexample: when the store rejects the delete of loser "L1", the
merge raises: the other loser "L2" of the same group is never deleted, and a
whole further group (winner "V", loser "L9") is never attempted — refuting
"the failure is local to that one record and processing continues with the
remaining losers and subsequent groups". -/
theorem C2_counterexample :
    merge_group exFailsL1 [exW, exL1, exL2] false = .error exErrSt
    ∧ "L2" ∉ deleteKeys exErrSt.trace
    ∧ run_groups exFailsL1 false [[exW, exL1, exL2], [exV, exL9]] = .error exErrSt.trace
    ∧ "L9" ∉ deleteKeys exErrSt.trace := by
  decide

/-- C2 (amended): an uncaught version conflict aborts the run: a failing step
on one loser makes the loser loop return that very error, so the remaining
losers of the group are never processed and add nothing to the trace; and a
group whose merge raises makes the group loop of `main` return the error
immediately, so the subsequent groups are never attempted and add nothing to
the trace (the script has no handler below the top level, which exits). -/
theorem C2_conflict_aborts :
    (∀ (fails : String → Nat → Bool) (dryRun : Bool) (w l : ItemBundle)
        (rest : List ItemBundle) (st st' : MergeState),
      stepLoser fails dryRun w l st = .error st' →
        processLosers fails dryRun w (l :: rest) st = .error st')
    ∧ (∀ (fails : String → Nat → Bool) (dryRun : Bool) (g : List ItemBundle)
        (rest : List (List ItemBundle)) (st : MergeState),
      merge_group fails g dryRun = .error st →
        run_groups fails dryRun (g :: rest) = .error st.trace) :=
  ⟨processLosers_error_head, run_groups_error_head⟩

/-- C1: on the group `[exW, exL1, exL2]` — two losers each carrying a note
with the same signature, a survivor carrying neither — dry-run mode reports
it would re-parent both notes ("n1" and "n2") while a live run re-parents
only "n1" and discards "n2" as a duplicate: dry-run does not reproduce the
live run's child classification, because the dry branch never extends
`winner_children` with the batches it would have moved. -/
theorem C1_dry_live_divergence :
    dryReparentKeys (traceOf (merge_group noFail [exW, exL1, exL2] true)) = ["n1", "n2"]
    ∧ updateKeys (traceOf (merge_group noFail [exW, exL1, exL2] false)) = ["n1"]
    ∧ child_signature exN1 = child_signature exN2 := by
  decide
